import Mathlib

/-!
# Virtual-host registry (`virtualhost.go`)

A shallow embedding of the in-memory registry `VirtualHosts` of package
`tunnel`, and theorems about its five operations `AddHost`, `DeleteHost`,
`GetIdentifier`, `GetNextHost` and `GetHost`.

Modelling decisions

* `map[string]*VirtualHost` is a finite partial function.  It is embedded as
  `GoMap`: a list of key/record pairs together with a proof that no key occurs
  twice.  The position of an entry in that list carries no meaning.
* The order in which `range v.Mapping` produces the entries is chosen by the Go
  runtime at every loop.  `GetNextHost` therefore takes the produced sequence
  as an argument `order`; the runtime guarantees that it lists every entry of
  the map exactly once, which is the predicate `IterationOf`.
* `Last` is a Go `int`.  It is embedded as `Int`.  The only arithmetic on it is
  `v.Last += 1` executed when `v.Last` equals a loop index below
  `len(v.Mapping)`, and `len(v.Mapping) - 1`; neither can leave the range of a
  machine integer, so no wrap-around is modelled.
* The mutex makes every method body one atomic step; each method is embedded as
  a function from the state before to the result and state after.
* An `error` is embedded as `Option String`: `none` is `nil`, `some msg` is
  `errors.New(msg)`.
-/

namespace Tunnel

/-! ## Data model -/

/-- The record type `VirtualHost` (three string fields). -/
structure VirtualHost where
  Identifier : String
  Port : String
  RemoteAddress : String
deriving DecidableEq, Repr

/-- The composite literal `VirtualHost{}`: every field is the empty string. -/
def VirtualHost.zero : VirtualHost := ⟨"", "", ""⟩

/-- One key/record pair of the map. -/
abbrev Entry := String × VirtualHost

/-- The keys of a list of entries, in list order. -/
def entryKeys (l : List Entry) : List String := l.map Prod.fst

/-- Index expression `m[k]` with the comma-ok form: the record under `k`, if any. -/
def lookupEntries : List Entry → String → Option VirtualHost
  | [], _ => none
  | (k', x) :: rest, k => if k' = k then some x else lookupEntries rest k

/-- Assignment `m[k] = x` on the entry list: replace the record under `k`, or add
a new entry when `k` is not a key. -/
def storeEntries : List Entry → String → VirtualHost → List Entry
  | [], k, x => [(k, x)]
  | (k', x') :: rest, k, x =>
    if k' = k then (k, x) :: rest else (k', x') :: storeEntries rest k x

/-- Builtin `delete(m, k)` on the entry list: drop the entry under `k`, if any. -/
def removeEntries : List Entry → String → List Entry
  | [], _ => []
  | (k', x') :: rest, k =>
    if k' = k then rest else (k', x') :: removeEntries rest k

theorem entryKeys_storeEntries_mem (l : List Entry) (k : String) (x : VirtualHost)
    (a : String) :
    a ∈ entryKeys (storeEntries l k x) ↔ a = k ∨ a ∈ entryKeys l := by
  induction l with
  | nil => simp [storeEntries, entryKeys]
  | cons e rest ih =>
    obtain ⟨k', x'⟩ := e
    by_cases h : k' = k
    · subst h
      simp [storeEntries, entryKeys]
    · have ih' := ih
      simp only [entryKeys] at ih'
      simp only [storeEntries, h, if_false, entryKeys, List.map_cons, List.mem_cons, ih']
      tauto

theorem nodup_storeEntries (l : List Entry) (k : String) (x : VirtualHost)
    (h : (entryKeys l).Nodup) : (entryKeys (storeEntries l k x)).Nodup := by
  induction l with
  | nil => simp [storeEntries, entryKeys]
  | cons e rest ih =>
    obtain ⟨k', x'⟩ := e
    have hcons : k' ∉ entryKeys rest ∧ (entryKeys rest).Nodup := by
      simpa [entryKeys] using h
    by_cases hk : k' = k
    · subst hk
      simpa [storeEntries, entryKeys] using h
    · have hnot : k' ∉ entryKeys (storeEntries rest k x) := by
        rw [entryKeys_storeEntries_mem]
        rintro (h1 | h1)
        · exact hk h1
        · exact hcons.1 h1
      have := ih hcons.2
      simp only [storeEntries, hk, if_false]
      simp only [entryKeys, List.map_cons, List.nodup_cons]
      exact ⟨by simpa [entryKeys] using hnot, by simpa [entryKeys] using this⟩

theorem entryKeys_removeEntries_subset (l : List Entry) (k : String) (a : String)
    (h : a ∈ entryKeys (removeEntries l k)) : a ∈ entryKeys l := by
  induction l with
  | nil => simp [removeEntries, entryKeys] at h
  | cons e rest ih =>
    obtain ⟨k', x'⟩ := e
    by_cases hk : k' = k
    · simp only [removeEntries, hk, if_true] at h
      simp only [entryKeys, List.map_cons, List.mem_cons]
      exact Or.inr (by simpa [entryKeys] using h)
    · simp only [removeEntries, hk, if_false, entryKeys, List.map_cons, List.mem_cons] at h
      simp only [entryKeys, List.map_cons, List.mem_cons]
      rcases h with h | h
      · exact Or.inl h
      · exact Or.inr (by simpa [entryKeys] using ih (by simpa [entryKeys] using h))

theorem nodup_removeEntries (l : List Entry) (k : String)
    (h : (entryKeys l).Nodup) : (entryKeys (removeEntries l k)).Nodup := by
  induction l with
  | nil => simp [removeEntries, entryKeys]
  | cons e rest ih =>
    obtain ⟨k', x'⟩ := e
    have hcons : k' ∉ entryKeys rest ∧ (entryKeys rest).Nodup := by
      simpa [entryKeys] using h
    by_cases hk : k' = k
    · simpa [removeEntries, hk] using hcons.2
    · have hnot : k' ∉ entryKeys (removeEntries rest k) :=
        fun hmem => hcons.1 (entryKeys_removeEntries_subset rest k k' hmem)
      have := ih hcons.2
      simp only [removeEntries, hk, if_false]
      simp only [entryKeys, List.map_cons, List.nodup_cons]
      exact ⟨by simpa [entryKeys] using hnot, by simpa [entryKeys] using this⟩

/-- A Go `map[string]*VirtualHost`: entries with pairwise different keys. -/
structure GoMap where
  entries : List Entry
  nodupKeys : (entryKeys entries).Nodup

namespace GoMap

theorem ext_entries {m m' : GoMap} (h : m.entries = m'.entries) : m = m' := by
  cases m; cases m'; cases h; rfl

instance : DecidableEq GoMap := fun m m' =>
  decidable_of_iff (m.entries = m'.entries) ⟨ext_entries, fun h => by rw [h]⟩

/-- The map `make(map[string]*VirtualHost)`. -/
def empty : GoMap := ⟨[], List.nodup_nil⟩

/-- Builtin `len(m)`. -/
def len (m : GoMap) : Nat := m.entries.length

/-- Index expression with comma-ok, `x, ok := m[k]`. -/
def lookup (m : GoMap) (k : String) : Option VirtualHost := lookupEntries m.entries k

/-- Assignment `m[k] = x`. -/
def store (m : GoMap) (k : String) (x : VirtualHost) : GoMap :=
  ⟨storeEntries m.entries k x, nodup_storeEntries m.entries k x m.nodupKeys⟩

/-- Builtin `delete(m, k)`. -/
def remove (m : GoMap) (k : String) : GoMap :=
  ⟨removeEntries m.entries k, nodup_removeEntries m.entries k m.nodupKeys⟩

end GoMap

/-- The registry `VirtualHosts`: the map and the round-robin cursor.  The
embedded mutex has no state of its own between two method calls. -/
structure VirtualHosts where
  Mapping : GoMap
  Last : Int
deriving DecidableEq

/-- A sequence `order` is what one `range v.Mapping` loop may produce when it
lists every entry of the map exactly once. -/
def IterationOf (m : GoMap) (order : List Entry) : Prop := order.Perm m.entries

instance (m : GoMap) (order : List Entry) : Decidable (IterationOf m order) := by
  unfold IterationOf; infer_instance

/-! ## Operations -/

/-- The constructor `NewVirtualHosts`. -/
def NewVirtualHosts : VirtualHosts := { Mapping := GoMap.empty, Last := 0 }

/-- Method `AddHost`: store a fresh record holding the three fields of `vHost`
under `identifier`. -/
def AddHost (v : VirtualHosts) (vHost : VirtualHost) (identifier : String) : VirtualHosts :=
  { v with
    Mapping := v.Mapping.store identifier
      { Identifier := vHost.Identifier
        Port := vHost.Port
        RemoteAddress := vHost.RemoteAddress } }

/-- Method `DeleteHost`. -/
def DeleteHost (v : VirtualHosts) (identifier : String) : VirtualHosts :=
  { v with Mapping := v.Mapping.remove identifier }

/-- Method `GetIdentifier`: the `Identifier` field of the record under `hostID`. -/
def GetIdentifier (v : VirtualHosts) (hostID : String) : String × Bool :=
  match v.Mapping.lookup hostID with
  | none => ("", false)
  | some ht => (ht.Identifier, true)

/-- Method `GetHost`: a copy of the record under `identifier`. -/
def GetHost (v : VirtualHosts) (identifier : String) : VirtualHost × Bool :=
  match v.Mapping.lookup identifier with
  | none => (VirtualHost.zero, false)
  | some ht => (ht, true)

/-- The message of the first error of `GetNextHost`. -/
def EmptyRegistry : String := "there is no open connections"

/-- The message of the second error of `GetNextHost`. -/
def CursorOutOfRange : String := "could not find next host"

/-- The loop `for _, value := range v.Mapping` of `GetNextHost`, run over the
entries still to come with the current value of `index`.  When `index` meets
`v.Last` the loop returns the record and the new cursor; `none` means the loop
ran to its end. -/
def rangeLoop (v : VirtualHosts) : List Entry → Int → Option (VirtualHost × Int)
  | [], _ => none
  | (_, value) :: rest, index =>
    if index = v.Last then
      let last := if v.Last = (v.Mapping.len : Int) - 1 then 0 else v.Last
      some (value, last + 1)
    else rangeLoop v rest (index + 1)

/-- Method `GetNextHost`, with the sequence `order` that `range` produces in
this call.  The result is the returned pair and the state after the call. -/
def GetNextHost (v : VirtualHosts) (order : List Entry) :
    (VirtualHost × Option String) × VirtualHosts :=
  if v.Last = 0 ∧ v.Mapping.len = 0 then
    ((VirtualHost.zero, some EmptyRegistry), v)
  else
    match rangeLoop v order 0 with
    | some (value, last) => ((value, none), { v with Last := last })
    | none => ((VirtualHost.zero, some CursorOutOfRange), v)

/-! ## Sequences of calls -/

/-- A run of `AddHost` calls, one for each `(record, identifier)` pair, in list
order. -/
def addHosts (v : VirtualHosts) : List (VirtualHost × String) → VirtualHosts
  | [] => v
  | (vHost, identifier) :: rest => addHosts (AddHost v vHost identifier) rest

/-- A run of `n` consecutive `GetNextHost` calls with nothing in between, every
loop producing the same sequence `order`.  The result lists the returned pairs
in call order, with the state after the last call. -/
def getNextHostN (order : List Entry) :
    Nat → VirtualHosts → List (VirtualHost × Option String) × VirtualHosts
  | 0, v => ([], v)
  | n + 1, v =>
    let r := GetNextHost v order
    let rs := getNextHostN order n r.2
    (r.1 :: rs.1, rs.2)

/-- One call of a public method, with its arguments; for `GetNextHost` also the
sequence its loop produces. -/
inductive Op where
  | addHost (vHost : VirtualHost) (identifier : String)
  | deleteHost (identifier : String)
  | getHost (identifier : String)
  | getIdentifier (hostID : String)
  | getNextHost (order : List Entry)
deriving DecidableEq

/-- The state after a call. -/
def Op.apply (v : VirtualHosts) : Op → VirtualHosts
  | .addHost vHost identifier => AddHost v vHost identifier
  | .deleteHost identifier => DeleteHost v identifier
  | .getHost _ => v
  | .getIdentifier _ => v
  | .getNextHost order => (GetNextHost v order).2

/-- A call can happen in state `v`: for `GetNextHost` the produced sequence has
to list the entries of the map of `v`. -/
def Op.admissible (v : VirtualHosts) : Op → Prop
  | .getNextHost order => IterationOf v.Mapping order
  | _ => True

instance (v : VirtualHosts) (op : Op) : Decidable (op.admissible v) := by
  cases op <;> unfold Op.admissible <;> infer_instance

/-- The call is a `DeleteHost`. -/
def Op.isDelete : Op → Bool
  | .deleteHost _ => true
  | _ => false

/-- The state after a sequence of calls. -/
def run (v : VirtualHosts) : List Op → VirtualHosts
  | [] => v
  | op :: ops => run (op.apply v) ops

/-- Every call of the sequence can happen in the state it is made in. -/
def Admissible (v : VirtualHosts) : List Op → Prop
  | [] => True
  | op :: ops => op.admissible v ∧ Admissible (op.apply v) ops

instance decAdmissible : (v : VirtualHosts) → (ops : List Op) → Decidable (Admissible v ops)
  | _, [] => isTrue trivial
  | v, op :: ops =>
    have := decAdmissible (op.apply v) ops
    inferInstanceAs (Decidable (op.admissible v ∧ Admissible (op.apply v) ops))

/-- The records of the example scenario. -/
def hostU1 : VirtualHost := ⟨"u1", "8080", "1.2.3.4:5"⟩

/-- The second record of the example scenario. -/
def hostU2 : VirtualHost := ⟨"u2", "8081", "1.2.3.4:6"⟩

/-- Two records are added, one `GetNextHost` call is served, both records are
deleted. -/
def emptiedTrace : List Op :=
  [.addHost hostU1 "u1", .addHost hostU2 "u2",
    .getNextHost [("u1", hostU1), ("u2", hostU2)], .deleteHost "u1", .deleteHost "u2"]

/-- A third record. -/
def hostU3 : VirtualHost := ⟨"u3", "8082", "1.2.3.4:7"⟩

/-- The call is an `AddHost`. -/
def Op.isAdd : Op → Bool
  | .addHost _ _ => true
  | _ => false

/-- The closed form of the rotation: the position, in the produced sequence of a
registry of `N` entries, that the `k`-th call (`k` counted from 1) of a run of
`GetNextHost` calls serves. -/
def rotationPos (N k : Nat) : Nat :=
  if k ≤ 1 then 0 else 1 + (k - 2) % (N - 1)

/-! ## Lemmas on the map -/

theorem lookupEntries_storeEntries_self (l : List Entry) (k : String) (x : VirtualHost) :
    lookupEntries (storeEntries l k x) k = some x := by
  induction l with
  | nil => simp [storeEntries, lookupEntries]
  | cons e rest ih =>
    obtain ⟨k', x'⟩ := e
    by_cases hk : k' = k
    · simp [storeEntries, lookupEntries, hk]
    · simp [storeEntries, lookupEntries, hk, ih]

theorem GoMap.lookup_store_self (m : GoMap) (k : String) (x : VirtualHost) :
    (m.store k x).lookup k = some x :=
  lookupEntries_storeEntries_self m.entries k x

theorem lookupEntries_eq_none_of_not_mem (l : List Entry) (k : String)
    (h : k ∉ entryKeys l) : lookupEntries l k = none := by
  induction l with
  | nil => simp [lookupEntries]
  | cons e rest ih =>
    obtain ⟨k', x'⟩ := e
    have h' : ¬ k = k' ∧ k ∉ entryKeys rest := by simpa [entryKeys] using h
    have hk : ¬ k' = k := fun hh => h'.1 hh.symm
    simp [lookupEntries, hk, ih h'.2]

theorem lookupEntries_removeEntries_self (l : List Entry) (k : String)
    (h : (entryKeys l).Nodup) : lookupEntries (removeEntries l k) k = none := by
  induction l with
  | nil => simp [removeEntries, lookupEntries]
  | cons e rest ih =>
    obtain ⟨k', x'⟩ := e
    have hcons : k' ∉ entryKeys rest ∧ (entryKeys rest).Nodup := by
      simpa [entryKeys] using h
    by_cases hk : k' = k
    · subst hk
      simpa [removeEntries] using lookupEntries_eq_none_of_not_mem rest k' hcons.1
    · simp [removeEntries, lookupEntries, hk, ih hcons.2]

theorem GoMap.lookup_remove_self (m : GoMap) (k : String) :
    (m.remove k).lookup k = none :=
  lookupEntries_removeEntries_self m.entries k m.nodupKeys

theorem lookupEntries_of_mem (l : List Entry) (k : String) (x : VirtualHost)
    (h : (entryKeys l).Nodup) (hmem : (k, x) ∈ l) : lookupEntries l k = some x := by
  induction l with
  | nil => simp at hmem
  | cons e rest ih =>
    obtain ⟨k', x'⟩ := e
    have hcons : k' ∉ entryKeys rest ∧ (entryKeys rest).Nodup := by
      simpa [entryKeys] using h
    rcases List.mem_cons.mp hmem with heq | hrest
    · cases heq
      simp [lookupEntries]
    · have hk : ¬ k' = k := by
        intro hh
        subst hh
        exact hcons.1 (List.mem_map.mpr ⟨(k', x), hrest, rfl⟩)
      simp [lookupEntries, hk, ih hcons.2 hrest]

theorem length_storeEntries_of_mem (l : List Entry) (k : String) (x : VirtualHost)
    (h : k ∈ entryKeys l) : (storeEntries l k x).length = l.length := by
  induction l with
  | nil => simp [entryKeys] at h
  | cons e rest ih =>
    obtain ⟨k', x'⟩ := e
    by_cases hk : k' = k
    · simp [storeEntries, hk]
    · have h' : k ∈ entryKeys rest := by
        have : k = k' ∨ k ∈ entryKeys rest := by simpa [entryKeys] using h
        rcases this with h1 | h1
        · exact absurd h1.symm hk
        · exact h1
      simp [storeEntries, hk, ih h']

theorem filter_key_of_lookup (l : List Entry) (k : String) (x : VirtualHost)
    (h : (entryKeys l).Nodup) (hl : lookupEntries l k = some x) :
    l.filter (fun e => decide (e.1 = k)) = [(k, x)] := by
  induction l with
  | nil => simp [lookupEntries] at hl
  | cons e rest ih =>
    obtain ⟨k', x'⟩ := e
    have hcons : k' ∉ entryKeys rest ∧ (entryKeys rest).Nodup := by
      simpa [entryKeys] using h
    by_cases hk : k' = k
    · subst hk
      have hx : x' = x := by simpa [lookupEntries] using hl
      subst hx
      have hnone : rest.filter (fun e => decide (e.1 = k')) = [] := by
        rw [List.filter_eq_nil_iff]
        intro e he hdec
        have : e.1 = k' := by simpa using hdec
        exact hcons.1 (List.mem_map.mpr ⟨e, he, this⟩)
      simp [List.filter_cons, hnone]
    · have hl' : lookupEntries rest k = some x := by simpa [lookupEntries, hk] using hl
      simp [List.filter_cons, hk, ih hcons.2 hl']

/-! ## Lemmas on the loop of `GetNextHost` -/

/-- The cursor that a successful `GetNextHost` leaves behind. -/
def nextLast (v : VirtualHosts) : Int :=
  (if v.Last = (v.Mapping.len : Int) - 1 then 0 else v.Last) + 1

theorem rangeLoop_eq_getElem (v : VirtualHosts) (l : List Entry) (index : Int)
    (h : index ≤ v.Last) :
    rangeLoop v l index
      = (l[(v.Last - index).toNat]?).map (fun e => (e.2, nextLast v)) := by
  induction l generalizing index with
  | nil => simp [rangeLoop]
  | cons e rest ih =>
    obtain ⟨k, x⟩ := e
    by_cases hidx : index = v.Last
    · simp [rangeLoop, hidx, nextLast]
    · have hlt : index + 1 ≤ v.Last := by omega
      have hn : (v.Last - index).toNat = (v.Last - (index + 1)).toNat + 1 := by omega
      simp only [rangeLoop, hidx, if_false]
      rw [ih (index + 1) hlt, hn, List.getElem?_cons_succ]

theorem rangeLoop_eq_none_of_lt (v : VirtualHosts) (l : List Entry) (index : Int)
    (h : v.Last < index) : rangeLoop v l index = none := by
  induction l generalizing index with
  | nil => simp [rangeLoop]
  | cons e rest ih =>
    obtain ⟨k, x⟩ := e
    have hidx : ¬ index = v.Last := by omega
    simp only [rangeLoop, hidx, if_false]
    exact ih (index + 1) (by omega)

theorem IterationOf.length_eq {m : GoMap} {order : List Entry} (h : IterationOf m order) :
    order.length = m.len := by
  unfold IterationOf at h
  simpa [GoMap.len] using h.length_eq

/-- A call with the cursor inside the produced sequence succeeds with the record
at the cursor position. -/
theorem GetNextHost_of_lt (v : VirtualHosts) (order : List Entry)
    (hiter : IterationOf v.Mapping order) (h0 : 0 ≤ v.Last)
    (hlt : v.Last < (v.Mapping.len : Int)) :
    ∃ e, order[v.Last.toNat]? = some e
      ∧ GetNextHost v order = ((e.2, none), { v with Last := nextLast v }) := by
  have hlen := hiter.length_eq
  have hbound : v.Last.toNat < order.length := by omega
  refine ⟨order[v.Last.toNat], List.getElem?_eq_getElem hbound, ?_⟩
  have hne : ¬ (v.Last = 0 ∧ v.Mapping.len = 0) := by omega
  have hloop := rangeLoop_eq_getElem v order 0 h0
  simp only [sub_zero] at hloop
  rw [List.getElem?_eq_getElem hbound] at hloop
  simp only [Option.map_some'] at hloop
  simp only [GetNextHost, hne, if_false, hloop]

/-- A call with the cursor at or past the end of the produced sequence, or
below zero, fails and leaves the state as it was. -/
theorem GetNextHost_of_not_lt (v : VirtualHosts) (order : List Entry)
    (hiter : IterationOf v.Mapping order)
    (h : v.Last < 0 ∨ (v.Mapping.len : Int) ≤ v.Last) :
    GetNextHost v order
      = ((VirtualHost.zero,
          some (if v.Last = 0 ∧ v.Mapping.len = 0 then EmptyRegistry else CursorOutOfRange)), v) := by
  have hlen := hiter.length_eq
  by_cases hempty : v.Last = 0 ∧ v.Mapping.len = 0
  · simp only [GetNextHost, hempty, and_self, if_true]
  · have hloop : rangeLoop v order 0 = none := by
      rcases h with h | h
      · exact rangeLoop_eq_none_of_lt v order 0 h
      · have h0 : 0 ≤ v.Last := by omega
        rw [rangeLoop_eq_getElem v order 0 h0]
        simp only [sub_zero, Option.map_eq_none']
        exact List.getElem?_eq_none (by omega)
    simp only [GetNextHost, hempty, if_false, hloop]

/-! ## Lemmas on sequences of calls -/

theorem storeEntries_of_not_mem (l : List Entry) (k : String) (x : VirtualHost)
    (h : k ∉ entryKeys l) : storeEntries l k x = l ++ [(k, x)] := by
  induction l with
  | nil => simp [storeEntries]
  | cons e rest ih =>
    obtain ⟨k', x'⟩ := e
    have h' : ¬ k = k' ∧ k ∉ entryKeys rest := by simpa [entryKeys] using h
    have hk : ¬ k' = k := fun hh => h'.1 hh.symm
    simp [storeEntries, hk, ih h'.2]

theorem AddHost_entries_of_not_mem (v : VirtualHosts) (h : VirtualHost) (i : String)
    (hi : i ∉ entryKeys v.Mapping.entries) :
    (AddHost v h i).Mapping.entries = v.Mapping.entries ++ [(i, h)] := by
  simp [AddHost, GoMap.store, storeEntries_of_not_mem _ _ _ hi]

theorem addHosts_Last (adds : List (VirtualHost × String)) (v : VirtualHosts) :
    (addHosts v adds).Last = v.Last := by
  induction adds generalizing v with
  | nil => rfl
  | cons p rest ih =>
    obtain ⟨h, i⟩ := p
    simp only [addHosts]
    rw [ih]
    rfl

/-- Adding records under pairwise different identifiers that are not yet keys
adds exactly these entries. -/
theorem addHosts_entries (adds : List (VirtualHost × String)) (v : VirtualHosts)
    (hdistinct : (adds.map Prod.snd).Nodup)
    (hfresh : ∀ p ∈ adds, p.2 ∉ entryKeys v.Mapping.entries) :
    (addHosts v adds).Mapping.entries
      = v.Mapping.entries ++ adds.map (fun p => (p.2, p.1)) := by
  induction adds generalizing v with
  | nil => simp [addHosts]
  | cons p rest ih =>
    obtain ⟨h, i⟩ := p
    have hd : i ∉ rest.map Prod.snd ∧ (rest.map Prod.snd).Nodup := by
      simpa using hdistinct
    have hi : i ∉ entryKeys v.Mapping.entries := hfresh (h, i) (List.mem_cons_self _ _)
    have hstep := AddHost_entries_of_not_mem v h i hi
    have hfresh' : ∀ p ∈ rest, p.2 ∉ entryKeys (AddHost v h i).Mapping.entries := by
      intro p hp hmem
      rw [hstep] at hmem
      have hor : p.2 ∈ entryKeys v.Mapping.entries ∨ p.2 = i := by
        simpa [entryKeys] using hmem
      rcases hor with h1 | h1
      · exact hfresh p (List.mem_cons_of_mem _ hp) h1
      · exact hd.1 (List.mem_map.mpr ⟨p, hp, h1⟩)
    simp only [addHosts]
    rw [ih (AddHost v h i) hd.2 hfresh', hstep]
    simp

/-- As long as the cursor stays inside the map, `n` consecutive calls return
the `n` records that follow the cursor position in the produced sequence. -/
theorem getNextHostN_of_le (order : List Entry) (n : Nat) (v : VirtualHosts) (c : Nat)
    (hiter : IterationOf v.Mapping order) (hc : v.Last = (c : Int))
    (hle : c + n ≤ v.Mapping.len) :
    (getNextHostN order n v).1
      = ((order.drop c).take n).map (fun e => (e.2, none)) := by
  induction n generalizing v c with
  | zero => simp [getNextHostN]
  | succ m ih =>
    have h0 : 0 ≤ v.Last := by omega
    have hlt : v.Last < (v.Mapping.len : Int) := by omega
    obtain ⟨e, he, hres⟩ := GetNextHost_of_lt v order hiter h0 hlt
    have hcn : v.Last.toNat = c := by omega
    rw [hcn] at he
    have hbound : c < order.length := by
      rw [hiter.length_eq]; omega
    have hdrop : order.drop c = e :: order.drop (c + 1) := by
      have h1 := List.getElem?_eq_getElem hbound
      rw [he] at h1
      have h2 : order[c] = e := (Option.some.inj h1).symm
      rw [← h2]
      exact List.drop_eq_getElem_cons hbound
    simp only [getNextHostN, hres, hdrop, List.take_succ_cons, List.map_cons]
    congr 1
    cases m with
    | zero => simp [getNextHostN]
    | succ k =>
      have hnext : nextLast v = ((c + 1 : Nat) : Int) := by
        have hne : ¬ v.Last = (v.Mapping.len : Int) - 1 := by omega
        simp only [nextLast, hne, if_false]
        omega
      exact ih { v with Last := nextLast v } (c + 1) hiter hnext (by simpa using by omega)

/-- As long as the cursor stays inside the map, `n` consecutive calls leave the
map as it is and move the cursor `n` positions on, except that the call served
at the last position leaves the cursor at 1. -/
theorem getNextHostN_state_of_le (order : List Entry) (n : Nat) (v : VirtualHosts) (c : Nat)
    (hiter : IterationOf v.Mapping order) (hc : v.Last = (c : Int))
    (hle : c + n ≤ v.Mapping.len) :
    (getNextHostN order n v).2
      = { v with Last := if c + n = v.Mapping.len ∧ 0 < n then 1 else ((c + n : Nat) : Int) } := by
  induction n generalizing v c with
  | zero =>
    obtain ⟨m, l⟩ := v
    simp only at hc
    simp [getNextHostN, hc]
  | succ m ih =>
    have h0 : 0 ≤ v.Last := by omega
    have hlt : v.Last < (v.Mapping.len : Int) := by omega
    obtain ⟨e, -, hres⟩ := GetNextHost_of_lt v order hiter h0 hlt
    simp only [getNextHostN, hres]
    cases m with
    | zero =>
      simp only [getNextHostN, nextLast, hc]
      by_cases hend : c + 1 = v.Mapping.len
      · have h1 : (c : Int) = (v.Mapping.len : Int) - 1 := by omega
        simp [hend, h1]
      · have h1 : ¬ (c : Int) = (v.Mapping.len : Int) - 1 := by omega
        simp [hend, h1]
    | succ k =>
      have hnext : nextLast v = ((c + 1 : Nat) : Int) := by
        have hne : ¬ v.Last = (v.Mapping.len : Int) - 1 := by omega
        simp only [nextLast, hne, if_false]
        omega
      have hstep := ih { v with Last := nextLast v } (c + 1) hiter hnext
        (by simpa using by omega)
      rw [hstep]
      have harith : c + 1 + (k + 1) = c + (k + 1 + 1) := by omega
      simp [harith]

/-- The state after `GetNextHost`: unchanged, or, when the cursor was inside the
map, the same map with the advanced cursor. -/
theorem GetNextHost_state (v : VirtualHosts) (order : List Entry)
    (hiter : IterationOf v.Mapping order) :
    (GetNextHost v order).2 = v
      ∨ (0 ≤ v.Last ∧ v.Last < (v.Mapping.len : Int)
          ∧ (GetNextHost v order).2 = { v with Last := nextLast v }) := by
  by_cases hin : 0 ≤ v.Last ∧ v.Last < (v.Mapping.len : Int)
  · obtain ⟨e, -, hres⟩ := GetNextHost_of_lt v order hiter hin.1 hin.2
    exact Or.inr ⟨hin.1, hin.2, by rw [hres]⟩
  · have hout : v.Last < 0 ∨ (v.Mapping.len : Int) ≤ v.Last := by omega
    exact Or.inl (by rw [GetNextHost_of_not_lt v order hiter hout])

/-- A property that every allowed call preserves holds after every admissible
sequence of allowed calls. -/
theorem run_invariant (allowed : Op → Prop) (P : VirtualHosts → Prop)
    (hstep : ∀ v op, allowed op → P v → op.admissible v → P (op.apply v))
    (ops : List Op) (v : VirtualHosts) (hP : P v)
    (hall : ∀ op ∈ ops, allowed op) (hadm : Admissible v ops) : P (run v ops) := by
  induction ops generalizing v with
  | nil => exact hP
  | cons op rest ih =>
    exact ih (op.apply v)
      (hstep v op (hall op (List.mem_cons_self _ _)) hP hadm.1)
      (fun o ho => hall o (List.mem_cons_of_mem _ ho)) hadm.2

theorem length_storeEntries_ge (l : List Entry) (k : String) (x : VirtualHost) :
    l.length ≤ (storeEntries l k x).length := by
  induction l with
  | nil => simp [storeEntries]
  | cons e rest ih =>
    obtain ⟨k', x'⟩ := e
    by_cases hk : k' = k
    · simp [storeEntries, hk]
    · simpa [storeEntries, hk] using ih

/-- Every public call keeps the cursor at or above zero. -/
theorem apply_Last_nonneg (v : VirtualHosts) (op : Op) (h : 0 ≤ v.Last)
    (hadm : op.admissible v) : 0 ≤ (op.apply v).Last := by
  cases op with
  | addHost vHost identifier => exact h
  | deleteHost identifier => exact h
  | getHost identifier => exact h
  | getIdentifier hostID => exact h
  | getNextHost order =>
    rcases GetNextHost_state v order hadm with hs | ⟨h0, -, hs⟩
    · simp only [Op.apply, hs]; exact h
    · simp only [Op.apply, hs, nextLast]
      split <;> omega

/-- The cursor bound that every call other than `DeleteHost` preserves. -/
def CursorBound (v : VirtualHosts) : Prop :=
  0 ≤ v.Last ∧ (v.Last = 0 ∨ v.Last < (v.Mapping.len : Int) ∨ (v.Last = 1 ∧ v.Mapping.len = 1))

theorem apply_CursorBound (v : VirtualHosts) (op : Op) (hnd : op.isDelete = false)
    (h : CursorBound v) (hadm : op.admissible v) : CursorBound (op.apply v) := by
  cases op with
  | addHost vHost identifier =>
    have hlen : v.Mapping.len ≤ (AddHost v vHost identifier).Mapping.len :=
      length_storeEntries_ge _ _ _
    have hlast : (AddHost v vHost identifier).Last = v.Last := rfl
    simp only [Op.apply, CursorBound, hlast]
    unfold CursorBound at h
    omega
  | deleteHost identifier => simp [Op.isDelete] at hnd
  | getHost identifier => exact h
  | getIdentifier hostID => exact h
  | getNextHost order =>
    rcases GetNextHost_state v order hadm with hs | ⟨h0, hlt, hs⟩
    · simp only [Op.apply, hs]; exact h
    · simp only [Op.apply, hs, nextLast, CursorBound]
      split <;> omega

/-! ## Further lemmas on the map -/

theorem removeEntries_of_not_mem (l : List Entry) (k : String)
    (h : k ∉ entryKeys l) : removeEntries l k = l := by
  induction l with
  | nil => rfl
  | cons e rest ih =>
    obtain ⟨k', x'⟩ := e
    have h' : ¬ k = k' ∧ k ∉ entryKeys rest := by simpa [entryKeys] using h
    have hk : ¬ k' = k := fun hh => h'.1 hh.symm
    simp [removeEntries, hk, ih h'.2]

theorem not_mem_entryKeys_removeEntries (l : List Entry) (k : String)
    (h : (entryKeys l).Nodup) : k ∉ entryKeys (removeEntries l k) := by
  induction l with
  | nil => simp [removeEntries, entryKeys]
  | cons e rest ih =>
    obtain ⟨k', x'⟩ := e
    have hcons : k' ∉ entryKeys rest ∧ (entryKeys rest).Nodup := by
      simpa [entryKeys] using h
    by_cases hk : k' = k
    · subst hk
      simpa [removeEntries] using hcons.1
    · have hne : ¬ k = k' := fun hh => hk hh.symm
      have := ih hcons.2
      simp only [removeEntries, hk, if_false, entryKeys, List.map_cons, List.mem_cons, not_or]
      exact ⟨hne, by simpa [entryKeys] using this⟩

theorem not_mem_of_lookupEntries_eq_none (l : List Entry) (k : String)
    (h : lookupEntries l k = none) : k ∉ entryKeys l := by
  induction l with
  | nil => simp [entryKeys]
  | cons e rest ih =>
    obtain ⟨k', x'⟩ := e
    by_cases hk : k' = k
    · simp [lookupEntries, hk] at h
    · have hne : ¬ k = k' := fun hh => hk hh.symm
      have h' : lookupEntries rest k = none := by simpa [lookupEntries, hk] using h
      have := ih h'
      simp only [entryKeys, List.map_cons, List.mem_cons, not_or]
      exact ⟨hne, by simpa [entryKeys] using this⟩

theorem lookupEntries_storeEntries_ne (l : List Entry) (k j : String) (x : VirtualHost)
    (hne : j ≠ k) : lookupEntries (storeEntries l k x) j = lookupEntries l j := by
  have hkj : ¬ k = j := fun hh => hne hh.symm
  induction l with
  | nil => simp [storeEntries, lookupEntries, hkj]
  | cons e rest ih =>
    obtain ⟨k', x'⟩ := e
    by_cases hk : k' = k
    · subst hk
      simp [storeEntries, lookupEntries, hkj]
    · by_cases hj : k' = j
      · subst hj
        simp [storeEntries, lookupEntries, hk]
      · simp [storeEntries, lookupEntries, hk, hj, ih]

theorem lookupEntries_removeEntries_ne (l : List Entry) (k j : String)
    (hne : j ≠ k) : lookupEntries (removeEntries l k) j = lookupEntries l j := by
  have hkj : ¬ k = j := fun hh => hne hh.symm
  induction l with
  | nil => simp [removeEntries]
  | cons e rest ih =>
    obtain ⟨k', x'⟩ := e
    by_cases hk : k' = k
    · subst hk
      simp [removeEntries, lookupEntries, hkj]
    · by_cases hj : k' = j
      · subst hj
        simp [removeEntries, lookupEntries, hk]
      · simp [removeEntries, lookupEntries, hk, hj, ih]

theorem length_removeEntries_le (l : List Entry) (k : String) :
    (removeEntries l k).length ≤ l.length := by
  induction l with
  | nil => simp [removeEntries]
  | cons e rest ih =>
    obtain ⟨k', x'⟩ := e
    by_cases hk : k' = k
    · simp [removeEntries, hk]
    · simpa [removeEntries, hk] using ih

/-! ## Lemmas on the cursor after the first successful call -/

/-- Every public call keeps a cursor that is at least 1 at least 1. -/
theorem apply_Last_pos (v : VirtualHosts) (op : Op) (h : 1 ≤ v.Last)
    (hadm : op.admissible v) : 1 ≤ (op.apply v).Last := by
  cases op with
  | addHost vHost identifier => exact h
  | deleteHost identifier => exact h
  | getHost identifier => exact h
  | getIdentifier hostID => exact h
  | getNextHost order =>
    rcases GetNextHost_state v order hadm with hs | ⟨h0, -, hs⟩
    · simp only [Op.apply, hs]; exact h
    · simp only [Op.apply, hs, nextLast]
      split <;> omega

theorem run_Last_pos (ops : List Op) (v : VirtualHosts) (h : 1 ≤ v.Last)
    (hadm : Admissible v ops) : 1 ≤ (run v ops).Last :=
  run_invariant (fun _ => True) (fun s => 1 ≤ s.Last)
    (fun s op _ hs ha => apply_Last_pos s op hs ha) ops v h (fun _ _ => trivial) hadm

/-- With the cursor at 1 or above, `GetNextHost` never reports the empty
registry, serves a position other than 0 when it succeeds, and reports the
cursor out of range when the map holds at most one entry. -/
theorem GetNextHost_of_one_le (s : VirtualHosts) (order : List Entry)
    (hiter : IterationOf s.Mapping order) (h1 : 1 ≤ s.Last) :
    (GetNextHost s order).1.2 ≠ some EmptyRegistry
      ∧ ((GetNextHost s order).1.2 = none →
          ∃ e, order[s.Last.toNat]? = some e ∧ 1 ≤ s.Last.toNat
            ∧ (GetNextHost s order).1.1 = e.2)
      ∧ (s.Mapping.len ≤ 1 →
          GetNextHost s order = ((VirtualHost.zero, some CursorOutOfRange), s)) := by
  have hne : CursorOutOfRange ≠ EmptyRegistry := by decide
  have hnz : ¬ (s.Last = 0 ∧ s.Mapping.len = 0) := by omega
  by_cases hlt : s.Last < (s.Mapping.len : Int)
  · obtain ⟨e, he, hres⟩ := GetNextHost_of_lt s order hiter (by omega) hlt
    rw [hres]
    refine ⟨by simp, fun _ => ⟨e, he, by omega, rfl⟩, fun hle => ?_⟩
    omega
  · have hres := GetNextHost_of_not_lt s order hiter (Or.inr (by omega))
    simp only [hnz, if_false] at hres
    rw [hres]
    refine ⟨?_, ?_, fun _ => rfl⟩
    · simpa using hne
    · intro h
      simp at h

/-! ## Lemmas on long runs of `GetNextHost` -/

theorem getNextHostN_length (order : List Entry) (n : Nat) (v : VirtualHosts) :
    (getNextHostN order n v).1.length = n := by
  induction n generalizing v with
  | zero => rfl
  | succ m ih => simp [getNextHostN, ih]

/-- A run of `n + 1` calls is a run of `n` calls followed by one more call. -/
theorem getNextHostN_succ_last (order : List Entry) (n : Nat) (v : VirtualHosts) :
    getNextHostN order (n + 1) v
      = ((getNextHostN order n v).1 ++ [(GetNextHost (getNextHostN order n v).2 order).1],
          (GetNextHost (getNextHostN order n v).2 order).2) := by
  induction n generalizing v with
  | zero => simp [getNextHostN]
  | succ m ih =>
    have h := ih (GetNextHost v order).2
    rw [getNextHostN, h]
    simp [getNextHostN]

theorem succ_mod_cases (a m : Nat) (hm : 0 < m) :
    (a + 1) % m = if a % m + 1 = m then 0 else a % m + 1 := by
  have hlt := Nat.mod_lt a hm
  rw [← Nat.mod_add_mod a m 1]
  split
  · next h => rw [h, Nat.mod_self]
  · next h => exact Nat.mod_eq_of_lt (by omega)

theorem rotationPos_lt (N k : Nat) (hN : 2 ≤ N) : rotationPos N k < N := by
  unfold rotationPos
  split
  · omega
  · have := Nat.mod_lt (k - 2) (show 0 < N - 1 by omega)
    omega

/-- The closed form obeys the cursor update of `GetNextHost`. -/
theorem rotationPos_succ (N k : Nat) (hN : 2 ≤ N) (hk : 1 ≤ k) :
    rotationPos N (k + 1)
      = if rotationPos N k = N - 1 then 1 else rotationPos N k + 1 := by
  by_cases hk1 : k = 1
  · subst hk1
    have hne : ¬ (0 = N - 1) := by omega
    simp [rotationPos, hne]
  · have hk2 : ¬ k ≤ 1 := by omega
    have hk3 : ¬ k + 1 ≤ 1 := by omega
    have hsub : k + 1 - 2 = (k - 2) + 1 := by omega
    have hmod := succ_mod_cases (k - 2) (N - 1) (by omega)
    simp only [rotationPos, hk2, hk3, if_false, hsub, hmod]
    split <;> split <;> omega

/-- On a registry of at least two entries with cursor 0 the cursor before the
`(j + 1)`-th call of a run is given by the closed form. -/
theorem getNextHostN_rotation_state (v : VirtualHosts) (order : List Entry)
    (hiter : IterationOf v.Mapping order) (hl : v.Last = 0) (hN : 2 ≤ v.Mapping.len)
    (j : Nat) :
    (getNextHostN order j v).2
      = { v with Last := ((rotationPos v.Mapping.len (j + 1) : Nat) : Int) } := by
  induction j with
  | zero =>
    obtain ⟨m, l⟩ := v
    simp only at hl
    simp [getNextHostN, rotationPos, hl]
  | succ i ih =>
    rw [getNextHostN_succ_last, ih]
    have hpos := rotationPos_lt v.Mapping.len (i + 1) hN
    have h0 : (0 : Int) ≤ ((rotationPos v.Mapping.len (i + 1) : Nat) : Int) := by omega
    have hlt : ((rotationPos v.Mapping.len (i + 1) : Nat) : Int) < (v.Mapping.len : Int) := by
      omega
    obtain ⟨e, -, hres⟩ := GetNextHost_of_lt
      { v with Last := ((rotationPos v.Mapping.len (i + 1) : Nat) : Int) } order hiter h0 hlt
    rw [hres]
    have hsucc := rotationPos_succ v.Mapping.len (i + 1) hN (by omega)
    simp only [nextLast, hsucc]
    congr 1
    split <;> split <;> omega

/-! ## Round trip -/

/-- C1: for every registry state `v`, identifier `i` and record `h`, after
`AddHost(h, i)` the call `GetHost(i)` returns `(h, true)`, the returned record
agreeing with `h` on `Identifier`, `Port` and `RemoteAddress`, and
`GetIdentifier(i)` returns `(h.Identifier, true)`. -/
theorem addHost_getHost_roundtrip (v : VirtualHosts) (h : VirtualHost) (i : String) :
    GetHost (AddHost v h i) i = (h, true)
      ∧ (GetHost (AddHost v h i) i).1.Identifier = h.Identifier
      ∧ (GetHost (AddHost v h i) i).1.Port = h.Port
      ∧ (GetHost (AddHost v h i) i).1.RemoteAddress = h.RemoteAddress
      ∧ GetIdentifier (AddHost v h i) i = (h.Identifier, true) := by
  have hget : GetHost (AddHost v h i) i = (h, true) := by
    simp [GetHost, AddHost, GoMap.lookup_store_self]
  refine ⟨hget, ?_, ?_, ?_, ?_⟩
  · rw [hget]
  · rw [hget]
  · rw [hget]
  · simp [GetIdentifier, AddHost, GoMap.lookup_store_self]

/-! ## Round robin -/

/-- C2: for every `N` (in particular every `N >= 1`), on the registry obtained from `NewVirtualHosts()` by
`N` `AddHost` calls with pairwise different identifiers, `N` consecutive
`GetNextHost` calls (nothing in between, every loop producing the same sequence)
all succeed, and the records they return are, counted with multiplicity, exactly
the `N` records stored in `Mapping`, which are the `N` records added. -/
theorem getNextHost_round_robin_coverage (adds : List (VirtualHost × String))
    (order : List Entry)
    (hdistinct : (adds.map Prod.snd).Nodup)
    (hiter : IterationOf (addHosts NewVirtualHosts adds).Mapping order) :
    (addHosts NewVirtualHosts adds).Mapping.len = adds.length
      ∧ (∀ r ∈ (getNextHostN order adds.length (addHosts NewVirtualHosts adds)).1, r.2 = none)
      ∧ (((getNextHostN order adds.length (addHosts NewVirtualHosts adds)).1).map Prod.fst).Perm
          ((addHosts NewVirtualHosts adds).Mapping.entries.map Prod.snd)
      ∧ (((getNextHostN order adds.length (addHosts NewVirtualHosts adds)).1).map Prod.fst).Perm
          (adds.map Prod.fst) := by
  have hentries : (addHosts NewVirtualHosts adds).Mapping.entries
      = adds.map (fun p => (p.2, p.1)) := by
    have h := addHosts_entries adds NewVirtualHosts hdistinct
      (by intro p _; simp [NewVirtualHosts, GoMap.empty, entryKeys])
    simpa [NewVirtualHosts, GoMap.empty] using h
  have hlen : (addHosts NewVirtualHosts adds).Mapping.len = adds.length := by
    simp [GoMap.len, hentries]
  have hlast : (addHosts NewVirtualHosts adds).Last = ((0 : Nat) : Int) := by
    rw [addHosts_Last]; rfl
  have hres := getNextHostN_of_le order adds.length (addHosts NewVirtualHosts adds) 0
    hiter hlast (by omega)
  have htake : (order.drop 0).take adds.length = order := by
    rw [List.drop_zero, ← hlen, ← hiter.length_eq, List.take_length]
  rw [htake] at hres
  have hvals : (((getNextHostN order adds.length (addHosts NewVirtualHosts adds)).1).map
      Prod.fst) = order.map Prod.snd := by
    rw [hres, List.map_map]
    rfl
  have hperm : (order.map Prod.snd).Perm
      ((addHosts NewVirtualHosts adds).Mapping.entries.map Prod.snd) :=
    List.Perm.map _ hiter
  refine ⟨hlen, ?_, ?_, ?_⟩
  · intro r hr
    rw [hres] at hr
    obtain ⟨e, -, rfl⟩ := List.mem_map.mp hr
    rfl
  · rw [hvals]; exact hperm
  · rw [hvals]
    have hmap : (addHosts NewVirtualHosts adds).Mapping.entries.map Prod.snd
        = adds.map Prod.fst := by
      rw [hentries, List.map_map]
      rfl
    rw [← hmap]; exact hperm

/-- Witness of C2 in the example scenario: `u1` and `u2` added, the loop
producing `u2` before `u1`; the first call returns one record and the second
call the other. -/
theorem getNextHost_round_robin_coverage_witness :
    (getNextHostN [("u2", hostU2), ("u1", hostU1)] 2
        (addHosts NewVirtualHosts [(hostU1, "u1"), (hostU2, "u2")])).1
        = [(hostU2, none), (hostU1, none)]
      ∧ (((getNextHostN [("u2", hostU2), ("u1", hostU1)] 2
            (addHosts NewVirtualHosts [(hostU1, "u1"), (hostU2, "u2")])).1).map Prod.fst).Perm
          [hostU1, hostU2] :=
  ⟨by decide,
    (getNextHost_round_robin_coverage [(hostU1, "u1"), (hostU2, "u2")]
      [("u2", hostU2), ("u1", hostU1)] (by decide) (by decide)).2.2.2⟩

/-- C3, at `N = 1`: on the registry holding the one record added under `u1`,
the first `GetNextHost` call returns that record and the second call fails with
"could not find next host", the cursor standing at 1 = `len(Mapping)`. -/
theorem getNextHost_single_entry_no_wrap :
    getNextHostN [("u1", hostU1)] 2 (addHosts NewVirtualHosts [(hostU1, "u1")])
      = ([(hostU1, none), (VirtualHost.zero, some "could not find next host")],
          { addHosts NewVirtualHosts [(hostU1, "u1")] with Last := 1 }) := by
  decide

/-- For `N >= 2` the wrap-around does happen: after `N` calls on a registry of
`N` entries with cursor 0 the cursor is 1 and a further call succeeds with the
record at position 1 of the produced sequence, one of those already returned. -/
theorem getNextHost_wraps_of_two_le (v : VirtualHosts) (order : List Entry)
    (hiter : IterationOf v.Mapping order) (hl : v.Last = 0) (hN : 2 ≤ v.Mapping.len) :
    (getNextHostN order v.Mapping.len v).2 = { v with Last := 1 }
      ∧ ∃ e, order[1]? = some e
          ∧ (GetNextHost (getNextHostN order v.Mapping.len v).2 order).1 = (e.2, none)
          ∧ (e.2, none) ∈ (getNextHostN order v.Mapping.len v).1 := by
  have hstate := getNextHostN_state_of_le order v.Mapping.len v 0 hiter
    (by simpa using hl) (by omega)
  have hpos : 0 < v.Mapping.len := by omega
  simp only [Nat.zero_add, hpos, and_self, if_true] at hstate
  have hres := getNextHostN_of_le order v.Mapping.len v 0 hiter (by simpa using hl) (by omega)
  have htake : (order.drop 0).take v.Mapping.len = order := by
    rw [List.drop_zero, ← hiter.length_eq, List.take_length]
  rw [htake] at hres
  have h1 : (0 : Int) ≤ 1 := by decide
  have h2 : (1 : Int) < (v.Mapping.len : Int) := by omega
  obtain ⟨e, he, hcall⟩ := GetNextHost_of_lt { v with Last := 1 } order hiter h1 h2
  refine ⟨hstate, e, by simpa using he, ?_, ?_⟩
  · rw [hstate, hcall]
  · rw [hres]
    exact List.mem_map.mpr ⟨e, List.getElem?_mem he, rfl⟩

/-! ## Reachable states -/

/-- C5 as stated fails: after `AddHost(u1)`, `AddHost(u2)`, one `GetNextHost`,
`DeleteHost(u1)` and `DeleteHost(u2)` the map has no entries, yet `GetNextHost` does not fail with
"there is no open connections". -/
theorem getNextHost_empty_map_not_always_EmptyRegistry :
    ¬ (∀ ops : List Op, Admissible NewVirtualHosts ops →
        (run NewVirtualHosts ops).Mapping.len = 0 →
        ∀ order, IterationOf (run NewVirtualHosts ops).Mapping order →
          (GetNextHost (run NewVirtualHosts ops) order).1.2
            = some "there is no open connections") := by
  intro h
  have hc := h emptiedTrace (by decide) (by decide) [] (by decide)
  revert hc
  decide

/-- C5, amended: in every state reachable from `NewVirtualHosts()` by the public
operations in which `Mapping` has no entries, the cursor is not negative and
`GetNextHost` fails, returning the zero-value record and leaving the state as it
is: with "there is no open connections" when `Last = 0` and with "could not
find next host" when `Last >= 1`. -/
theorem getNextHost_empty_map_fails (ops : List Op) (order : List Entry)
    (hadm : Admissible NewVirtualHosts ops)
    (hempty : (run NewVirtualHosts ops).Mapping.len = 0)
    (hiter : IterationOf (run NewVirtualHosts ops).Mapping order) :
    0 ≤ (run NewVirtualHosts ops).Last
      ∧ ((run NewVirtualHosts ops).Last = 0 →
          GetNextHost (run NewVirtualHosts ops) order
            = ((VirtualHost.zero, some "there is no open connections"),
                run NewVirtualHosts ops))
      ∧ (1 ≤ (run NewVirtualHosts ops).Last →
          GetNextHost (run NewVirtualHosts ops) order
            = ((VirtualHost.zero, some "could not find next host"),
                run NewVirtualHosts ops)) := by
  have h0 : 0 ≤ (run NewVirtualHosts ops).Last :=
    run_invariant (fun _ => True) (fun v => 0 ≤ v.Last)
      (fun v op _ hv ha => apply_Last_nonneg v op hv ha) ops NewVirtualHosts
      (by decide) (fun _ _ => trivial) hadm
  have hres := GetNextHost_of_not_lt (run NewVirtualHosts ops) order hiter
    (Or.inr (by omega))
  refine ⟨h0, ?_, ?_⟩
  · intro hl
    rw [hres]
    simp [hl, hempty, EmptyRegistry]
  · intro hl
    rw [hres]
    have hne : ¬ (run NewVirtualHosts ops).Last = 0 := by omega
    simp [hne, CursorOutOfRange]

/-- Witness of the amended C5 at the state reached by `AddHost(u1)`,
`AddHost(u2)`, one `GetNextHost`, `DeleteHost(u1)` and `DeleteHost(u2)`, where
the cursor is 1. -/
theorem getNextHost_empty_map_fails_witness :
    (run NewVirtualHosts emptiedTrace).Last = 1
      ∧ GetNextHost (run NewVirtualHosts emptiedTrace) []
        = ((VirtualHost.zero, some "could not find next host"),
            run NewVirtualHosts emptiedTrace) :=
  ⟨by decide,
    (getNextHost_empty_map_fails emptiedTrace [] (by decide) (by decide) (by decide)).2.2
      (by decide)⟩

/-- C6 as stated fails: after three `AddHost` calls, two `GetNextHost` calls and
one `DeleteHost` the map holds two entries and the cursor is 2. -/
theorem cursor_range_invariant_fails :
    ¬ (∀ ops : List Op, Admissible NewVirtualHosts ops →
        (run NewVirtualHosts ops).Mapping.len ≠ 0 →
        0 ≤ (run NewVirtualHosts ops).Last
          ∧ (run NewVirtualHosts ops).Last < ((run NewVirtualHosts ops).Mapping.len : Int)) := by
  intro h
  have hc := h
    [.addHost hostU1 "u1", .addHost hostU2 "u2", .addHost hostU3 "u3",
      .getNextHost [("u1", hostU1), ("u2", hostU2), ("u3", hostU3)],
      .getNextHost [("u3", hostU3), ("u1", hostU1), ("u2", hostU2)],
      .deleteHost "u1"]
    (by decide) (by decide)
  revert hc
  decide

/-- C6, amended: in every state reachable from `NewVirtualHosts()` by the public
operations `0 <= Last`; and when no `DeleteHost` call was made on the way and
`Mapping` holds at least two entries, `Last < len(Mapping)`. -/
theorem cursor_range_invariant (ops : List Op)
    (hadm : Admissible NewVirtualHosts ops) :
    0 ≤ (run NewVirtualHosts ops).Last
      ∧ ((∀ op ∈ ops, op.isDelete = false) →
          2 ≤ (run NewVirtualHosts ops).Mapping.len →
          (run NewVirtualHosts ops).Last < ((run NewVirtualHosts ops).Mapping.len : Int)) := by
  constructor
  · exact run_invariant (fun _ => True) (fun v => 0 ≤ v.Last)
      (fun v op _ hv ha => apply_Last_nonneg v op hv ha) ops NewVirtualHosts
      (by decide) (fun _ _ => trivial) hadm
  · intro hnd hlen
    have hb : CursorBound (run NewVirtualHosts ops) :=
      run_invariant (fun op => op.isDelete = false) CursorBound
        (fun v op ho hv ha => apply_CursorBound v op ho hv ha) ops NewVirtualHosts
        ⟨by decide, Or.inl rfl⟩ hnd hadm
    unfold CursorBound at hb
    omega

/-- Witness of the amended C6: two records added, then three `GetNextHost`
calls; the cursor is 1, below the two entries of the map. -/
theorem cursor_range_invariant_witness :
    (run NewVirtualHosts
        [.addHost hostU1 "u1", .addHost hostU2 "u2",
          .getNextHost [("u2", hostU2), ("u1", hostU1)],
          .getNextHost [("u1", hostU1), ("u2", hostU2)],
          .getNextHost [("u2", hostU2), ("u1", hostU1)]]).Last = 1
      ∧ (run NewVirtualHosts
        [.addHost hostU1 "u1", .addHost hostU2 "u2",
          .getNextHost [("u2", hostU2), ("u1", hostU1)],
          .getNextHost [("u1", hostU1), ("u2", hostU2)],
          .getNextHost [("u2", hostU2), ("u1", hostU1)]]).Last
        < ((run NewVirtualHosts
            [.addHost hostU1 "u1", .addHost hostU2 "u2",
              .getNextHost [("u2", hostU2), ("u1", hostU1)],
              .getNextHost [("u1", hostU1), ("u2", hostU2)],
              .getNextHost [("u2", hostU2), ("u1", hostU1)]]).Mapping.len : Int) :=
  ⟨by decide,
    (cursor_range_invariant
      [.addHost hostU1 "u1", .addHost hostU2 "u2",
        .getNextHost [("u2", hostU2), ("u1", hostU1)],
        .getNextHost [("u1", hostU1), ("u2", hostU2)],
        .getNextHost [("u2", hostU2), ("u1", hostU1)]]
      (by decide)).2 (by decide) (by decide)⟩

/-! ## Errors of `GetNextHost` -/

/-- C4: on every state whose `Mapping` is empty and whose cursor `Last` is 0,
whatever sequence the loop would produce, `GetNextHost` returns the zero-value
`VirtualHost` together with the error "there is no open connections" and leaves
`Mapping` and `Last` unchanged.  The registry returned by `NewVirtualHosts()` is
such a state (see the witness). -/
theorem getNextHost_empty_registry (v : VirtualHosts) (order : List Entry)
    (hm : v.Mapping.len = 0) (hl : v.Last = 0) :
    GetNextHost v order
        = ((VirtualHost.zero, some "there is no open connections"), v)
      ∧ (GetNextHost v order).1.2 = some EmptyRegistry
      ∧ (GetNextHost v order).2.Mapping = v.Mapping
      ∧ (GetNextHost v order).2.Last = v.Last := by
  have h : GetNextHost v order = ((VirtualHost.zero, some EmptyRegistry), v) := by
    simp [GetNextHost, hm, hl]
  refine ⟨h, ?_, ?_, ?_⟩ <;> rw [h]

/-- Witness of C4 at the freshly constructed registry. -/
theorem getNextHost_empty_registry_witness :
    NewVirtualHosts.Mapping.len = 0 ∧ NewVirtualHosts.Last = 0
      ∧ GetNextHost NewVirtualHosts []
        = ((VirtualHost.zero, some "there is no open connections"), NewVirtualHosts) :=
  ⟨rfl, rfl, (getNextHost_empty_registry NewVirtualHosts [] rfl rfl).1⟩

/-- C7: for every state with `Last >= 0` and every sequence the loop may
produce, `GetNextHost` succeeds iff `Last < len(Mapping)`; it fails with "could
not find next host" iff `Last >= len(Mapping)` and not (`Last = 0` and `Mapping`
empty); it fails with "there is no open connections" iff `Last = 0` and
`Mapping` is empty. -/
theorem getNextHost_error_iff (v : VirtualHosts) (order : List Entry)
    (hiter : IterationOf v.Mapping order) (h0 : 0 ≤ v.Last) :
    ((GetNextHost v order).1.2 = none ↔ v.Last < (v.Mapping.len : Int))
      ∧ ((GetNextHost v order).1.2 = some "could not find next host"
          ↔ ((v.Mapping.len : Int) ≤ v.Last ∧ ¬ (v.Last = 0 ∧ v.Mapping.len = 0)))
      ∧ ((GetNextHost v order).1.2 = some "there is no open connections"
          ↔ (v.Last = 0 ∧ v.Mapping.len = 0)) := by
  have hne : EmptyRegistry ≠ CursorOutOfRange := by decide
  have hE : EmptyRegistry = "there is no open connections" := rfl
  have hC : CursorOutOfRange = "could not find next host" := rfl
  by_cases hlt : v.Last < (v.Mapping.len : Int)
  · obtain ⟨e, -, hres⟩ := GetNextHost_of_lt v order hiter h0 hlt
    rw [hres]
    have h1 : ¬ ((v.Mapping.len : Int) ≤ v.Last) := by omega
    have h2 : ¬ (v.Last = 0 ∧ v.Mapping.len = 0) := by omega
    simp [hlt, h1, h2]
  · have hge : (v.Mapping.len : Int) ≤ v.Last := by omega
    rw [GetNextHost_of_not_lt v order hiter (Or.inr hge)]
    by_cases hempty : v.Last = 0 ∧ v.Mapping.len = 0
    · simp only [hempty, and_self, if_true, ← hE, ← hC]
      simp [hne]
    · simp only [hempty, if_false, ← hE, ← hC]
      simp [hlt, hge, hne.symm]

/-- Witness of C7 on the one-entry registry after its first `GetNextHost`, where
the cursor has passed the end. -/
theorem getNextHost_error_iff_witness :
    (run NewVirtualHosts [.addHost hostU1 "u1", .getNextHost [("u1", hostU1)]]).Last = 1
      ∧ (GetNextHost (run NewVirtualHosts [.addHost hostU1 "u1", .getNextHost [("u1", hostU1)]])
          [("u1", hostU1)]).1.2 = some "could not find next host" :=
  ⟨by decide,
    ((getNextHost_error_iff
      (run NewVirtualHosts [.addHost hostU1 "u1", .getNextHost [("u1", hostU1)]])
      [("u1", hostU1)] (by decide) (by decide)).2.1).mpr (by decide)⟩

/-! ## Selection -/

/-- C8 as stated fails: on the registry to which the zero-value record was
added under the key `k`, `GetNextHost` succeeds and the record it returns, the
one stored under `k` at position 0, is the zero value. -/
theorem getNextHost_may_return_zero_record :
    ¬ (∀ (v : VirtualHosts) (order : List Entry), IterationOf v.Mapping order →
        (GetNextHost v order).1.2 = none →
        (∃ k, order[v.Last.toNat]? = some (k, (GetNextHost v order).1.1)
            ∧ v.Mapping.lookup k = some (GetNextHost v order).1.1)
          ∧ (GetNextHost v order).1.1 ≠ VirtualHost.zero) := by
  intro h
  have hc := (h (AddHost NewVirtualHosts VirtualHost.zero "k") [("k", VirtualHost.zero)]
    (by decide) (by decide)).2
  revert hc
  decide

/-- C8, amended: whenever `GetNextHost` succeeds, the cursor before the call was
not negative and the returned record is the one at position `Last` (counted
from 0) of the sequence the loop produced; it is the record currently stored in
`Mapping` under the key at that position, never a deleted one; and it is the
zero value only when the record stored under that key is itself the zero
value, so never when no stored record is the zero value. -/
theorem getNextHost_returns_entry_at_cursor (v : VirtualHosts) (order : List Entry)
    (hiter : IterationOf v.Mapping order)
    (hok : (GetNextHost v order).1.2 = none) :
    0 ≤ v.Last
      ∧ ∃ k, order[v.Last.toNat]? = some (k, (GetNextHost v order).1.1)
          ∧ v.Mapping.lookup k = some (GetNextHost v order).1.1
          ∧ (k, (GetNextHost v order).1.1) ∈ v.Mapping.entries
          ∧ ((GetNextHost v order).1.1 = VirtualHost.zero
              → v.Mapping.lookup k = some VirtualHost.zero)
          ∧ ((∀ e ∈ v.Mapping.entries, e.2 ≠ VirtualHost.zero)
              → (GetNextHost v order).1.1 ≠ VirtualHost.zero) := by
  by_cases hin : 0 ≤ v.Last ∧ v.Last < (v.Mapping.len : Int)
  · obtain ⟨e, he, hres⟩ := GetNextHost_of_lt v order hiter hin.1 hin.2
    obtain ⟨k, x⟩ := e
    have hmem : (k, x) ∈ v.Mapping.entries :=
      (List.Perm.mem_iff hiter).mp (List.getElem?_mem he)
    have hlook : v.Mapping.lookup k = some x :=
      lookupEntries_of_mem _ k x v.Mapping.nodupKeys hmem
    rw [hres]
    exact ⟨hin.1, k, he, hlook, hmem, fun hz => by rw [← hz]; exact hlook,
      fun hall => hall (k, x) hmem⟩
  · have hout : v.Last < 0 ∨ (v.Mapping.len : Int) ≤ v.Last := by omega
    rw [GetNextHost_of_not_lt v order hiter hout] at hok
    simp at hok

/-- Witness of the amended C8 on the two-entry registry after its first `GetNextHost`, the
cursor standing at position 1: the call returns the record at position 1 of the
produced sequence, which is stored under `u1`. -/
theorem getNextHost_returns_entry_at_cursor_witness :
    (GetNextHost
        (run NewVirtualHosts
          [.addHost hostU1 "u1", .addHost hostU2 "u2",
            .getNextHost [("u1", hostU1), ("u2", hostU2)]])
        [("u2", hostU2), ("u1", hostU1)]).1 = (hostU1, none)
      ∧ 0 ≤ (run NewVirtualHosts
          [.addHost hostU1 "u1", .addHost hostU2 "u2",
            .getNextHost [("u1", hostU1), ("u2", hostU2)]]).Last :=
  ⟨by decide,
    (getNextHost_returns_entry_at_cursor
      (run NewVirtualHosts
        [.addHost hostU1 "u1", .addHost hostU2 "u2",
          .getNextHost [("u1", hostU1), ("u2", hostU2)]])
      [("u2", hostU2), ("u1", hostU1)] (by decide) (by decide)).1⟩

/-! ## Deletion and overwrite -/

/-- C9: for every state, identifier `i` and record `h`, after `AddHost(h, i)`
followed by `DeleteHost(i)`, `GetHost(i)` returns the zero-value `VirtualHost`
and `false`, and `GetIdentifier(i)` returns the empty string and `false`. -/
theorem addHost_deleteHost_clears (v : VirtualHosts) (h : VirtualHost) (i : String) :
    GetHost (DeleteHost (AddHost v h i) i) i = (VirtualHost.zero, false)
      ∧ GetIdentifier (DeleteHost (AddHost v h i) i) i = ("", false) := by
  constructor
  · simp [GetHost, DeleteHost, GoMap.lookup_remove_self]
  · simp [GetIdentifier, DeleteHost, GoMap.lookup_remove_self]

/-- C10: for every state, identifier `i` and records `h1`, `h2`, after
`AddHost(h1, i)` followed by `AddHost(h2, i)` the entries of `Mapping` whose key
is `i` are exactly the one entry `(i, h2)`, the key `i` occurs once among the
keys, `GetHost(i)` returns `(h2, true)`, and `len(Mapping)` is what it was
after the first `AddHost` alone. -/
theorem addHost_overwrite (v : VirtualHosts) (h1 h2 : VirtualHost) (i : String) :
    (AddHost (AddHost v h1 i) h2 i).Mapping.entries.filter (fun e => decide (e.1 = i))
        = [(i, h2)]
      ∧ (entryKeys (AddHost (AddHost v h1 i) h2 i).Mapping.entries).count i = 1
      ∧ GetHost (AddHost (AddHost v h1 i) h2 i) i = (h2, true)
      ∧ (AddHost (AddHost v h1 i) h2 i).Mapping.len = (AddHost v h1 i).Mapping.len := by
  have hlook : (AddHost (AddHost v h1 i) h2 i).Mapping.lookup i = some h2 := by
    simp [AddHost, GoMap.lookup_store_self]
  have hmem1 : i ∈ entryKeys (AddHost v h1 i).Mapping.entries := by
    simp [AddHost, GoMap.store, entryKeys_storeEntries_mem]
  have hmem2 : i ∈ entryKeys (AddHost (AddHost v h1 i) h2 i).Mapping.entries := by
    simp [AddHost, GoMap.store, entryKeys_storeEntries_mem]
  refine ⟨?_, ?_, ?_, ?_⟩
  · exact filter_key_of_lookup _ i h2 (AddHost (AddHost v h1 i) h2 i).Mapping.nodupKeys hlook
  · exact List.count_eq_one_of_mem (AddHost (AddHost v h1 i) h2 i).Mapping.nodupKeys hmem2
  · simp [GetHost, hlook]
  · exact length_storeEntries_of_mem _ i _ hmem1

/-! ## Deletion is idempotent, lookups are pure -/

/-- C11: for every state and every identifier `i` that is not a key of
`Mapping`, `DeleteHost(i)` leaves the whole state (`Mapping` and `Last`) as it
is; and for every state and every `i`, `DeleteHost(i)` applied twice yields the
state that `DeleteHost(i)` applied once yields. -/
theorem deleteHost_idempotent (v : VirtualHosts) (i : String) :
    (i ∉ entryKeys v.Mapping.entries → DeleteHost v i = v)
      ∧ DeleteHost (DeleteHost v i) i = DeleteHost v i := by
  have habsent : ∀ w : VirtualHosts, i ∉ entryKeys w.Mapping.entries → DeleteHost w i = w := by
    intro w hw
    obtain ⟨m, l⟩ := w
    have hm : m.remove i = m :=
      GoMap.ext_entries (removeEntries_of_not_mem m.entries i hw)
    simp [DeleteHost, hm]
  exact ⟨habsent v, habsent (DeleteHost v i)
    (not_mem_entryKeys_removeEntries v.Mapping.entries i v.Mapping.nodupKeys)⟩

/-- Witness of C11: `u2` is not a key of the registry holding `u1` alone, and
deleting it changes nothing. -/
theorem deleteHost_idempotent_witness :
    "u2" ∉ entryKeys (AddHost NewVirtualHosts hostU1 "u1").Mapping.entries
      ∧ DeleteHost (AddHost NewVirtualHosts hostU1 "u1") "u2"
        = AddHost NewVirtualHosts hostU1 "u1" :=
  ⟨by decide,
    (deleteHost_idempotent (AddHost NewVirtualHosts hostU1 "u1") "u2").1 (by decide)⟩

/-- C12: for every state and key `k`, `GetHost(k)` returns the record stored
under `k` and `true` when `k` is a key of `Mapping`, and the zero-value
`VirtualHost` and `false` otherwise; `GetIdentifier(k)` returns `("", false)`
exactly when `k` is not a key; and neither call changes the state. -/
theorem getHost_pure_lookup (v : VirtualHosts) (k : String) :
    (∀ x, (k, x) ∈ v.Mapping.entries → GetHost v k = (x, true))
      ∧ (k ∉ entryKeys v.Mapping.entries → GetHost v k = (VirtualHost.zero, false))
      ∧ (GetIdentifier v k = ("", false) ↔ k ∉ entryKeys v.Mapping.entries)
      ∧ (Op.getHost k).apply v = v
      ∧ (Op.getIdentifier k).apply v = v := by
  refine ⟨?_, ?_, ?_, rfl, rfl⟩
  · intro x hx
    have hl : v.Mapping.lookup k = some x :=
      lookupEntries_of_mem _ k x v.Mapping.nodupKeys hx
    simp [GetHost, hl]
  · intro hk
    have hl : v.Mapping.lookup k = none := lookupEntries_eq_none_of_not_mem _ k hk
    simp [GetHost, hl]
  · constructor
    · intro hres
      cases hl : v.Mapping.lookup k with
      | none => exact not_mem_of_lookupEntries_eq_none _ k hl
      | some ht => simp [GetIdentifier, hl] at hres
    · intro hk
      have hl : v.Mapping.lookup k = none := lookupEntries_eq_none_of_not_mem _ k hk
      simp [GetIdentifier, hl]

/-- Witness of C12 on the registry holding `u1` alone. -/
theorem getHost_pure_lookup_witness :
    GetHost (AddHost NewVirtualHosts hostU1 "u1") "u1" = (hostU1, true)
      ∧ GetHost (AddHost NewVirtualHosts hostU1 "u1") "u2" = (VirtualHost.zero, false) :=
  ⟨(getHost_pure_lookup (AddHost NewVirtualHosts hostU1 "u1") "u1").1 hostU1 (by decide),
    (getHost_pure_lookup (AddHost NewVirtualHosts hostU1 "u1") "u2").2.1 (by decide)⟩

/-- C13: for every state and every string `k`, `GetIdentifier(k)` and
`GetHost(k)` return the same found flag, and the string `GetIdentifier(k)`
returns is the `Identifier` field of the record `GetHost(k)` returns; it is the
field of the stored record, not `k`: after `AddHost(h, k)`, whatever
`h.Identifier` is, `GetIdentifier(k)` returns `h.Identifier`. -/
theorem getIdentifier_same_key_space (v : VirtualHosts) (k : String) :
    (GetIdentifier v k).2 = (GetHost v k).2
      ∧ (GetIdentifier v k).1 = (GetHost v k).1.Identifier
      ∧ (∀ h : VirtualHost, GetIdentifier (AddHost v h k) k = (h.Identifier, true))
      ∧ GetIdentifier (AddHost v hostU1 "other") "other" = ("u1", true) := by
  refine ⟨?_, ?_, ?_, ?_⟩
  · cases hl : v.Mapping.lookup k <;> simp [GetIdentifier, GetHost, hl]
  · cases hl : v.Mapping.lookup k <;> simp [GetIdentifier, GetHost, hl, VirtualHost.zero]
  · intro h
    simp [GetIdentifier, AddHost, GoMap.lookup_store_self]
  · simp [GetIdentifier, AddHost, GoMap.lookup_store_self, hostU1]

/-- C14: for every state, record `h` and identifiers `i` and `j` with `j`
different from `i`, `AddHost(h, i)` and `DeleteHost(i)` leave the cursor `Last`
as it is and leave the results of `GetHost(j)` and `GetIdentifier(j)` as they
are. -/
theorem mutators_frame (v : VirtualHosts) (h : VirtualHost) (i j : String) (hne : j ≠ i) :
    (AddHost v h i).Last = v.Last
      ∧ (DeleteHost v i).Last = v.Last
      ∧ GetHost (AddHost v h i) j = GetHost v j
      ∧ GetHost (DeleteHost v i) j = GetHost v j
      ∧ GetIdentifier (AddHost v h i) j = GetIdentifier v j
      ∧ GetIdentifier (DeleteHost v i) j = GetIdentifier v j := by
  have hadd : (AddHost v h i).Mapping.lookup j = v.Mapping.lookup j :=
    lookupEntries_storeEntries_ne v.Mapping.entries i j _ hne
  have hdel : (DeleteHost v i).Mapping.lookup j = v.Mapping.lookup j :=
    lookupEntries_removeEntries_ne v.Mapping.entries i j hne
  refine ⟨rfl, rfl, ?_, ?_, ?_, ?_⟩
  · simp only [GetHost, hadd]
  · simp only [GetHost, hdel]
  · simp only [GetIdentifier, hadd]
  · simp only [GetIdentifier, hdel]

/-- Witness of C14: on the registry holding `u1` and `u2`, deleting `u2` leaves
the lookup of `u1` as it is. -/
theorem mutators_frame_witness :
    GetHost (DeleteHost (addHosts NewVirtualHosts [(hostU1, "u1"), (hostU2, "u2")]) "u2") "u1"
      = GetHost (addHosts NewVirtualHosts [(hostU1, "u1"), (hostU2, "u2")]) "u1" :=
  (mutators_frame (addHosts NewVirtualHosts [(hostU1, "u1"), (hostU2, "u2")]) hostU3
    "u2" "u1" (by decide)).2.2.2.1

/-! ## The cursor after a successful call -/

/-- C16: whenever `GetNextHost` succeeds from a state with cursor `Last = c` and
`n = len(Mapping)` entries, `0 <= c < n`, the new cursor is 1 if `c = n - 1` and
`c + 1` otherwise, and `Mapping` is unchanged; the new cursor is never 0. -/
theorem getNextHost_cursor_update (v : VirtualHosts) (order : List Entry)
    (hiter : IterationOf v.Mapping order)
    (hok : (GetNextHost v order).1.2 = none) :
    0 ≤ v.Last ∧ v.Last < (v.Mapping.len : Int)
      ∧ (GetNextHost v order).2.Last
          = (if v.Last = (v.Mapping.len : Int) - 1 then 1 else v.Last + 1)
      ∧ (GetNextHost v order).2.Mapping = v.Mapping
      ∧ (GetNextHost v order).2.Last ≠ 0 := by
  by_cases hin : 0 ≤ v.Last ∧ v.Last < (v.Mapping.len : Int)
  · obtain ⟨e, -, hres⟩ := GetNextHost_of_lt v order hiter hin.1 hin.2
    rw [hres]
    refine ⟨hin.1, hin.2, ?_, rfl, ?_⟩
    · simp only [nextLast]
      split <;> simp
    · simp only [nextLast]
      split <;> omega
  · have hout : v.Last < 0 ∨ (v.Mapping.len : Int) ≤ v.Last := by omega
    rw [GetNextHost_of_not_lt v order hiter hout] at hok
    simp at hok

/-- Witness of C16 on the registry holding `u1` and `u2` with the cursor at the
last position 1: the call succeeds and the cursor stays 1. -/
theorem getNextHost_cursor_update_witness :
    (GetNextHost
        (run NewVirtualHosts
          [.addHost hostU1 "u1", .addHost hostU2 "u2",
            .getNextHost [("u1", hostU1), ("u2", hostU2)]])
        [("u1", hostU1), ("u2", hostU2)]).2.Last = 1 :=
  (getNextHost_cursor_update
    (run NewVirtualHosts
      [.addHost hostU1 "u1", .addHost hostU2 "u2",
        .getNextHost [("u1", hostU1), ("u2", hostU2)]])
    [("u1", hostU1), ("u2", hostU2)] (by decide) (by decide)).2.2.1

/-! ## After the first successful call -/

/-- C17: on a registry with exactly one entry and cursor `Last = 0`, the first
`GetNextHost` succeeds, returns that entry and sets `Last` to 1; after any
further public calls, every `GetNextHost` call made in a state whose `Mapping`
holds at most one entry fails with "could not find next host" and changes
nothing. -/
theorem getNextHost_single_entry_starves (v : VirtualHosts) (order : List Entry)
    (hiter : IterationOf v.Mapping order) (hlen : v.Mapping.len = 1) (hl : v.Last = 0) :
    (∃ e, v.Mapping.entries = [e]
        ∧ GetNextHost v order = ((e.2, none), { v with Last := 1 }))
      ∧ ∀ ops order2, Admissible (GetNextHost v order).2 ops →
          IterationOf (run (GetNextHost v order).2 ops).Mapping order2 →
          (run (GetNextHost v order).2 ops).Mapping.len ≤ 1 →
          GetNextHost (run (GetNextHost v order).2 ops) order2
            = ((VirtualHost.zero, some "could not find next host"),
                run (GetNextHost v order).2 ops) := by
  obtain ⟨e, he, hres⟩ := GetNextHost_of_lt v order hiter (by omega) (by omega)
  have hnext : nextLast v = 1 := by
    simp [nextLast, hl, hlen]
  rw [hnext] at hres
  have horder : order = [e] := by
    have hlen1 : order.length = 1 := by rw [hiter.length_eq, hlen]
    match order, hlen1 with
    | [a], _ =>
      have : a = e := by simpa [hl] using he
      rw [this]
  have hentries : v.Mapping.entries = [e] := by
    have hperm : [e].Perm v.Mapping.entries := by
      have := hiter
      rw [horder] at this
      exact this
    exact (List.singleton_perm.mp hperm).symm
  refine ⟨⟨e, hentries, hres⟩, ?_⟩
  intro ops order2 hadm hiter2 hle
  have hstart : 1 ≤ (GetNextHost v order).2.Last := by
    rw [hres]
  have hpos := run_Last_pos ops (GetNextHost v order).2 hstart hadm
  exact (GetNextHost_of_one_le _ order2 hiter2 hpos).2.2 hle

/-- Witness of C17 on the registry holding `u1` alone: the first call returns
the record of `u1`, the call after it fails. -/
theorem getNextHost_single_entry_starves_witness :
    GetNextHost (AddHost NewVirtualHosts hostU1 "u1") [("u1", hostU1)]
        = ((hostU1, none), { AddHost NewVirtualHosts hostU1 "u1" with Last := 1 })
      ∧ GetNextHost
          (run (GetNextHost (AddHost NewVirtualHosts hostU1 "u1") [("u1", hostU1)]).2 [])
          [("u1", hostU1)]
        = ((VirtualHost.zero, some "could not find next host"),
            run (GetNextHost (AddHost NewVirtualHosts hostU1 "u1") [("u1", hostU1)]).2 []) :=
  ⟨by decide,
    (getNextHost_single_entry_starves (AddHost NewVirtualHosts hostU1 "u1") [("u1", hostU1)]
      (by decide) (by decide) (by decide)).2 [] [("u1", hostU1)]
      (by decide) (by decide) (by decide)⟩

/-- C18: in every state reached after a successful `GetNextHost` call, whatever
public calls follow, `Last >= 1`; a further `GetNextHost` never returns "there
is no open connections", serves a position other than 0 of the produced sequence
when it succeeds, and returns "could not find next host" when every host has
been deleted. -/
theorem cursor_never_returns_to_zero (v : VirtualHosts) (order : List Entry)
    (hiter : IterationOf v.Mapping order)
    (hok : (GetNextHost v order).1.2 = none)
    (ops : List Op) (hadm : Admissible (GetNextHost v order).2 ops)
    (order2 : List Entry)
    (hiter2 : IterationOf (run (GetNextHost v order).2 ops).Mapping order2) :
    1 ≤ (run (GetNextHost v order).2 ops).Last
      ∧ (GetNextHost (run (GetNextHost v order).2 ops) order2).1.2
          ≠ some "there is no open connections"
      ∧ ((GetNextHost (run (GetNextHost v order).2 ops) order2).1.2 = none →
          ∃ e, order2[(run (GetNextHost v order).2 ops).Last.toNat]? = some e
            ∧ 1 ≤ (run (GetNextHost v order).2 ops).Last.toNat
            ∧ (GetNextHost (run (GetNextHost v order).2 ops) order2).1.1 = e.2)
      ∧ ((run (GetNextHost v order).2 ops).Mapping.len = 0 →
          (GetNextHost (run (GetNextHost v order).2 ops) order2).1.2
            = some "could not find next host") := by
  have hstart : 1 ≤ (GetNextHost v order).2.Last := by
    by_cases hin : 0 ≤ v.Last ∧ v.Last < (v.Mapping.len : Int)
    · obtain ⟨e, -, hres⟩ := GetNextHost_of_lt v order hiter hin.1 hin.2
      rw [hres]
      simp only [nextLast]
      split <;> omega
    · have hout : v.Last < 0 ∨ (v.Mapping.len : Int) ≤ v.Last := by omega
      rw [GetNextHost_of_not_lt v order hiter hout] at hok
      simp at hok
  have hpos := run_Last_pos ops (GetNextHost v order).2 hstart hadm
  obtain ⟨h1, h2, h3⟩ := GetNextHost_of_one_le _ order2 hiter2 hpos
  refine ⟨hpos, h1, h2, fun hzero => ?_⟩
  rw [h3 (by omega)]
  rfl

/-- Witness of C18: two hosts are added, one call is served, both hosts are
deleted; the cursor is 1 and the next call does not report the empty registry. -/
theorem cursor_never_returns_to_zero_witness :
    (run (GetNextHost (addHosts NewVirtualHosts [(hostU1, "u1"), (hostU2, "u2")])
        [("u1", hostU1), ("u2", hostU2)]).2 [.deleteHost "u1", .deleteHost "u2"]).Mapping.len = 0
      ∧ 1 ≤ (run (GetNextHost (addHosts NewVirtualHosts [(hostU1, "u1"), (hostU2, "u2")])
          [("u1", hostU1), ("u2", hostU2)]).2 [.deleteHost "u1", .deleteHost "u2"]).Last :=
  ⟨by decide,
    (cursor_never_returns_to_zero (addHosts NewVirtualHosts [(hostU1, "u1"), (hostU2, "u2")])
      [("u1", hostU1), ("u2", hostU2)] (by decide) (by decide)
      [.deleteHost "u1", .deleteHost "u2"] (by decide) [] (by decide)).1⟩

/-! ## The rotation in closed form -/

/-- C19: for every `N >= 2`, on a registry with `N` entries and cursor 0, with
nothing between the calls and every loop producing the same sequence
`e_0 .. e_(N-1)`, the `k`-th `GetNextHost` call (`k >= 1`) succeeds and returns
the record of `e_p`, where `p = 0` for `k = 1` and `p = 1 + ((k - 2) mod (N - 1))`
for `k >= 2`; so position 0 is served by the first call only, and for `N = 2`
every call after the first serves `e_1`. -/
theorem getNextHost_rotation_closed_form (v : VirtualHosts) (order : List Entry)
    (hiter : IterationOf v.Mapping order) (hl : v.Last = 0) (hN : 2 ≤ v.Mapping.len)
    (k : Nat) (hk : 1 ≤ k) :
    ∃ e, order[rotationPos v.Mapping.len k]? = some e
      ∧ (getNextHostN order k v).1[k - 1]? = some (e.2, none)
      ∧ (k = 1 → rotationPos v.Mapping.len k = 0)
      ∧ (2 ≤ k → rotationPos v.Mapping.len k = 1 + (k - 2) % (v.Mapping.len - 1))
      ∧ (2 ≤ k → 1 ≤ rotationPos v.Mapping.len k)
      ∧ (v.Mapping.len = 2 → 2 ≤ k → rotationPos v.Mapping.len k = 1) := by
  obtain ⟨j, rfl⟩ : ∃ j, k = j + 1 := ⟨k - 1, by omega⟩
  have hstate := getNextHostN_rotation_state v order hiter hl hN j
  have hpos := rotationPos_lt v.Mapping.len (j + 1) hN
  have h0 : (0 : Int) ≤ ((rotationPos v.Mapping.len (j + 1) : Nat) : Int) := by omega
  have hlt : ((rotationPos v.Mapping.len (j + 1) : Nat) : Int) < (v.Mapping.len : Int) := by
    omega
  obtain ⟨e, he, hres⟩ := GetNextHost_of_lt
    { v with Last := ((rotationPos v.Mapping.len (j + 1) : Nat) : Int) } order hiter h0 hlt
  have he2 : order[rotationPos v.Mapping.len (j + 1)]? = some e := by
    simpa using he
  refine ⟨e, he2, ?_, ?_, ?_, ?_, ?_⟩
  · rw [getNextHostN_succ_last, hstate, hres]
    have hlen := getNextHostN_length order j v
    simp only [Nat.add_sub_cancel]
    rw [List.getElem?_append_right (by omega), hlen]
    simp
  · intro h1
    simp [rotationPos, h1]
  · intro h2
    have : ¬ j + 1 ≤ 1 := by omega
    simp [rotationPos, this]
  · intro h2
    have : ¬ j + 1 ≤ 1 := by omega
    simp [rotationPos, this]
  · intro hlen2 h2
    have : ¬ j + 1 ≤ 1 := by omega
    simp [rotationPos, this, hlen2, Nat.mod_one]

/-- Witness of C19 on the registry holding `u1` and `u2`: the fourth call
returns the record at position 1. -/
theorem getNextHost_rotation_closed_form_witness :
    (getNextHostN [("u2", hostU2), ("u1", hostU1)] 4
        (addHosts NewVirtualHosts [(hostU1, "u1"), (hostU2, "u2")])).1
        = [(hostU2, none), (hostU1, none), (hostU1, none), (hostU1, none)]
      ∧ ∃ e, [("u2", hostU2), ("u1", hostU1)][rotationPos
            (addHosts NewVirtualHosts [(hostU1, "u1"), (hostU2, "u2")]).Mapping.len 4]? = some e
          ∧ (getNextHostN [("u2", hostU2), ("u1", hostU1)] 4
              (addHosts NewVirtualHosts [(hostU1, "u1"), (hostU2, "u2")])).1[4 - 1]?
            = some (e.2, none) :=
  ⟨by decide,
    match getNextHost_rotation_closed_form
      (addHosts NewVirtualHosts [(hostU1, "u1"), (hostU2, "u2")])
      [("u2", hostU2), ("u1", hostU1)] (by decide) (by decide) (by decide) 4 (by decide) with
    | ⟨e, h1, h2, _⟩ => ⟨e, h1, h2⟩⟩

/-! ## Failure leaves everything as it is -/

/-- C20: for every state, `GetNextHost` leaves `Mapping` unchanged; when it
returns an error, the error is "there is no open connections" or "could not find
next host", the whole state (`Last` too) is unchanged and the returned record is
the zero value; and after any further calls other than `AddHost`, a
`GetNextHost` call returns the same zero value and the same error again. -/
theorem getNextHost_failure_atomic (v : VirtualHosts) (order : List Entry) :
    (GetNextHost v order).2.Mapping = v.Mapping
      ∧ (IterationOf v.Mapping order → (GetNextHost v order).1.2 ≠ none →
          (GetNextHost v order).2 = v
            ∧ (GetNextHost v order).1.1 = VirtualHost.zero
            ∧ ((GetNextHost v order).1.2 = some "there is no open connections"
                ∨ (GetNextHost v order).1.2 = some "could not find next host")
            ∧ ∀ ops order2, (∀ op ∈ ops, op.isAdd = false) → Admissible v ops →
                IterationOf (run v ops).Mapping order2 →
                (GetNextHost (run v ops) order2).1 = (GetNextHost v order).1) := by
  constructor
  · unfold GetNextHost
    split
    · rfl
    · split <;> rfl
  · intro hiter herr
    have hout : v.Last < 0 ∨ (v.Mapping.len : Int) ≤ v.Last := by
      by_contra hcon
      obtain ⟨e, -, hres⟩ := GetNextHost_of_lt v order hiter (by omega) (by omega)
      rw [hres] at herr
      exact herr rfl
    have hres := GetNextHost_of_not_lt v order hiter hout
    refine ⟨by rw [hres], by rw [hres], ?_, ?_⟩
    · rw [hres]
      by_cases hempty : v.Last = 0 ∧ v.Mapping.len = 0
      · exact Or.inl (by simp [hempty, EmptyRegistry])
      · exact Or.inr (by simp [hempty, CursorOutOfRange])
    · intro ops order2 hnoadd hadm hiter2
      have hinv : (run v ops).Last = v.Last ∧ (run v ops).Mapping.len ≤ v.Mapping.len := by
        refine run_invariant (fun op => op.isAdd = false)
          (fun s => s.Last = v.Last ∧ s.Mapping.len ≤ v.Mapping.len) ?_ ops v
          ⟨rfl, le_refl _⟩ hnoadd hadm
        intro s op hop hs ha
        cases op with
        | addHost vHost identifier => simp [Op.isAdd] at hop
        | deleteHost identifier =>
          exact ⟨hs.1, le_trans (length_removeEntries_le s.Mapping.entries identifier) hs.2⟩
        | getHost identifier => exact hs
        | getIdentifier hostID => exact hs
        | getNextHost ord =>
          have hs_out : s.Last < 0 ∨ (s.Mapping.len : Int) ≤ s.Last := by omega
          have hs_res := GetNextHost_of_not_lt s ord ha hs_out
          simp only [Op.apply, hs_res]
          exact hs
      have hout2 : (run v ops).Last < 0 ∨ ((run v ops).Mapping.len : Int) ≤ (run v ops).Last := by
        omega
      rw [GetNextHost_of_not_lt (run v ops) order2 hiter2 hout2, hres]
      have hiff : ((run v ops).Last = 0 ∧ (run v ops).Mapping.len = 0)
          ↔ (v.Last = 0 ∧ v.Mapping.len = 0) := by
        constructor <;> intro h <;> omega
      simp only [hiff]

/-- Witness of C20 at the state with no entries and cursor 1: the call fails,
and fails again with the same error. -/
theorem getNextHost_failure_atomic_witness :
    (GetNextHost (run NewVirtualHosts emptiedTrace) []).1
        = (VirtualHost.zero, some "could not find next host")
      ∧ (GetNextHost (run (run NewVirtualHosts emptiedTrace) [.getNextHost []]) []).1
        = (GetNextHost (run NewVirtualHosts emptiedTrace) []).1 :=
  ⟨by decide,
    ((getNextHost_failure_atomic (run NewVirtualHosts emptiedTrace) []).2
      (by decide) (by decide)).2.2.2 [.getNextHost []] [] (by decide) (by decide) (by decide)⟩

end Tunnel
